import Mathlib

/-!
Shallow embedding of the distance-table loader/assembler of the
`arbre_phylogenetique` notebook.

The notebook's parse phase reads every file of a directory in sorted filename
order, splits each line on the tab character, stores the third field in a
dictionary under the ordered key made of the first two fields, and appends each
of the first two fields to a name list when not already present.  The matrix
phase sorts the names and, for every ordered pair of names, probes the
dictionary first with the pair, then with the swapped pair, converting the
stored string with `float`, and falls back to 0.

Modelling choices:
* a line is the list of its tab-separated fields (the result of `split`);
* a directory is a list of filenames together with a read function giving the
  lines of each file;
* the Python dictionary is an association list whose lookup returns the most
  recent binding, matching last-write-wins dictionary updates;
* `float` is modelled by `parseFloat`, a decimal parser into `ℚ`; a Python
  `IndexError` (fewer than three fields) or `ValueError` (unparsable distance)
  is modelled by `Option.none` propagating through the run.
-/

namespace NotebookTree

/-- One input line after `split` on tab: the list of its fields. -/
abbrev Line := List String

/-- Value of one decimal digit character. -/
def digitVal (c : Char) : ℕ := c.toNat - 48

/-- Parse a list of decimal digit characters into a natural number,
failing on any non-digit. -/
def parseDigits : List Char → ℕ → Option ℕ
  | [], acc => some acc
  | c :: cs, acc => if c.isDigit then parseDigits cs (acc * 10 + digitVal c) else none

/-- Split a character list at the first dot, returning the prefix and,
when a dot is present, the suffix after it. -/
def splitOnDot : List Char → List Char × Option (List Char)
  | [] => ([], none)
  | c :: cs =>
    if c = '.' then ([], some cs)
    else
      let r := splitOnDot cs
      (c :: r.1, r.2)

/-- Model of Python `float` restricted to plain decimal notation: an optional
sign, an integer part and an optional fractional part, at least one digit in
total.  Returns `none` on malformed input, modelling `ValueError`. -/
def parseFloat (s : String) : Option ℚ :=
  let signed : Bool × List Char :=
    match s.data with
    | '-' :: cs => (true, cs)
    | '+' :: cs => (false, cs)
    | cs => (false, cs)
  let body := splitOnDot signed.2
  match body.2 with
  | none =>
    match body.1 with
    | [] => none
    | _ =>
      match parseDigits body.1 0 with
      | none => none
      | some n => some (if signed.1 then -(n : ℚ) else (n : ℚ))
  | some frac =>
    if body.1 = [] ∧ frac = [] then none
    else
      match parseDigits body.1 0, parseDigits frac 0 with
      | some i, some f =>
        let v : ℚ := (i : ℚ) + (f : ℚ) / (10 : ℚ) ^ frac.length
        some (if signed.1 then -v else v)
      | _, _ => none

/-- Accumulated state of the parse phase: the distance dictionary `dist`
(association list from ordered name pairs to the raw distance field) and the
name list `names`. -/
structure ParseState where
  dist : List ((String × String) × String)
  names : List String
deriving DecidableEq, Repr

/-- Lookup in the distance dictionary: the most recent binding of the key. -/
def dlookup : List ((String × String) × String) → String × String → Option String
  | [], _ => none
  | (k, v) :: rest, q => if k = q then some v else dlookup rest q

/-- Append a name to the list when not already present, as the notebook's
`if x not in names: names.append(x)`. -/
def addName (ns : List String) (x : String) : List String :=
  if x ∈ ns then ns else ns ++ [x]

/-- Process one line: require the first three fields (an `IndexError` on a
shorter line is `none`), bind the ordered pair of the first two fields to the
third in the dictionary, and add both names. -/
def processLine (st : ParseState) (l : Line) : Option ParseState :=
  match l with
  | a :: b :: c :: _ =>
    some ⟨((a, b), c) :: st.dist, addName (addName st.names a) b⟩
  | _ => none

/-- Process a list of lines in order, threading the state; a failing line
aborts the whole run. -/
def processLines (st : ParseState) : List Line → Option ParseState
  | [] => some st
  | l :: ls =>
    match processLine st l with
    | none => none
    | some st1 => processLines st1 ls

/-- Process the lines of one file in order. -/
def processFile (st : ParseState) (lines : List Line) : Option ParseState :=
  processLines st lines

/-- Process a list of files in order, threading the state. -/
def parseFiles (read : String → List Line) : ParseState → List String → Option ParseState
  | st, [] => some st
  | st, f :: fs =>
    match processFile st (read f) with
    | none => none
    | some st1 => parseFiles read st1 fs

/-- The parse phase: run `processFile` over the files in sorted filename
order, starting from the empty state. -/
def parsePhase (files : List String) (read : String → List Line) : Option ParseState :=
  parseFiles read ⟨[], []⟩ (List.insertionSort (fun a b => a ≤ b) files)

/-- The lines of all files, in sorted filename order: the stream of lines the
parse phase consumes. -/
def streamLines (files : List String) (read : String → List Line) : List Line :=
  ((List.insertionSort (fun a b => a ≤ b) files).map read).flatten

/-- One matrix cell: probe the dictionary with `(a, b)`, then with `(b, a)`,
convert the stored field with `parseFloat`, and fall back to 0. -/
def matrixEntry (dist : List ((String × String) × String)) (a b : String) : Option ℚ :=
  match dlookup dist (a, b) with
  | some s => parseFloat s
  | none =>
    match dlookup dist (b, a) with
    | some s => parseFloat s
    | none => some 0

/-- Option-valued traversal of a list, used for the matrix rows: any failing
cell fails the whole construction. -/
def traverseOpt (f : α → Option β) : List α → Option (List β)
  | [] => some []
  | a :: l =>
    match f a with
    | none => none
    | some b =>
      match traverseOpt f l with
      | none => none
      | some r => some (b :: r)

/-- One matrix row: the cells of `a` against every name in order. -/
def buildRow (dist : List ((String × String) × String)) (names : List String)
    (a : String) : Option (List ℚ) :=
  traverseOpt (matrixEntry dist a) names

/-- The full matrix: one row per name, in order. -/
def buildMatrix (dist : List ((String × String) × String))
    (names : List String) : Option (List (List ℚ)) :=
  traverseOpt (buildRow dist names) names

/-- The whole assembler: parse phase, sort the names, build the matrix.
Returns the sorted name list and the matrix handed to the external
`DistanceMatrix` constructor. -/
def assemble (files : List String) (read : String → List Line) :
    Option (List String × List (List ℚ)) :=
  match parsePhase files read with
  | none => none
  | some st =>
    match buildMatrix st.dist (List.insertionSort (fun a b => a ≤ b) st.names) with
    | none => none
    | some m => some (List.insertionSort (fun a b => a ≤ b) st.names, m)

/-- Matrix cell accessor used to state positional claims. -/
def entry (m : List (List ℚ)) (i j : ℕ) : Option ℚ :=
  (m.get? i).bind fun r => r.get? j

/-- Last distance field recorded for the ordered pair `(a, b)` across a list
of lines, ignoring lines whose first two fields differ from `(a, b)`. -/
def lastDist : List Line → String → String → Option String
  | [], _, _ => none
  | l :: ls, a, b =>
    match lastDist ls a b with
    | some z => some z
    | none =>
      match l with
      | x :: y :: z :: _ => if x = a ∧ y = b then some z else none
      | _ => none

/-- Every key recorded in the dictionary has both of its components in the
name list. -/
def KeysInNames (st : ParseState) : Prop :=
  ∀ p v, (p, v) ∈ st.dist → p.1 ∈ st.names ∧ p.2 ∈ st.names

/-! ### Helper lemmas -/

theorem traverseOpt_length (f : α → Option β) :
    ∀ l r, traverseOpt f l = some r → r.length = l.length := by
  intro l
  induction l with
  | nil => intro r h; simp [traverseOpt] at h; simp [h.symm]
  | cons a l ih =>
    intro r h
    simp only [traverseOpt] at h
    cases hf : f a with
    | none => rw [hf] at h; exact absurd h (by simp)
    | some b =>
      rw [hf] at h
      cases ht : traverseOpt f l with
      | none => rw [ht] at h; exact absurd h (by simp)
      | some r0 =>
        rw [ht] at h
        cases h
        simp [ih r0 ht]

theorem traverseOpt_get? (f : α → Option β) :
    ∀ l r, traverseOpt f l = some r →
      ∀ i a, l.get? i = some a → ∃ b, f a = some b ∧ r.get? i = some b := by
  intro l
  induction l with
  | nil => intro r _ i a ha; simp at ha
  | cons x l ih =>
    intro r h i a ha
    simp only [traverseOpt] at h
    cases hf : f x with
    | none => rw [hf] at h; exact absurd h (by simp)
    | some b =>
      rw [hf] at h
      cases ht : traverseOpt f l with
      | none => rw [ht] at h; exact absurd h (by simp)
      | some r0 =>
        rw [ht] at h
        cases h
        cases i with
        | zero => cases ha; exact ⟨b, hf, rfl⟩
        | succ i => exact ih r0 ht i a ha

theorem traverseOpt_mem (f : α → Option β) :
    ∀ l r, traverseOpt f l = some r → ∀ a, a ∈ l → ∃ b, f a = some b := by
  intro l
  induction l with
  | nil => intro r _ a ha; simp at ha
  | cons x l ih =>
    intro r h a ha
    simp only [traverseOpt] at h
    cases hf : f x with
    | none => rw [hf] at h; exact absurd h (by simp)
    | some b =>
      rw [hf] at h
      cases ht : traverseOpt f l with
      | none => rw [ht] at h; exact absurd h (by simp)
      | some r0 =>
        rcases List.mem_cons.1 ha with rfl | ha
        · exact ⟨b, hf⟩
        · exact ih r0 ht a ha

theorem processLines_append (l1 l2 : List Line) :
    ∀ st, processLines st (l1 ++ l2) =
      match processLines st l1 with
      | none => none
      | some st1 => processLines st1 l2 := by
  induction l1 with
  | nil => intro st; simp [processLines]
  | cons l ls ih =>
    intro st
    simp only [List.cons_append, processLines]
    cases processLine st l with
    | none => rfl
    | some st1 => exact ih st1

theorem parseFiles_eq_processLines (read : String → List Line) :
    ∀ (fs : List String) (st : ParseState),
      parseFiles read st fs = processLines st ((fs.map read).flatten) := by
  intro fs
  induction fs with
  | nil => intro st; simp [parseFiles, processLines]
  | cons f fs ih =>
    intro st
    simp only [parseFiles, List.map_cons, List.flatten_cons, processFile]
    rw [processLines_append]
    cases processLines st (read f) with
    | none => rfl
    | some st1 => exact ih st1

theorem parsePhase_eq_stream (files : List String) (read : String → List Line) :
    parsePhase files read = processLines ⟨[], []⟩ (streamLines files read) :=
  parseFiles_eq_processLines read _ _

theorem mem_addName (ns : List String) (x y : String) :
    y ∈ addName ns x ↔ y ∈ ns ∨ y = x := by
  unfold addName
  by_cases hx : x ∈ ns
  · simp only [if_pos hx]
    constructor
    · exact Or.inl
    · rintro (h | rfl)
      · exact h
      · exact hx
  · simp [if_neg hx]

theorem addName_nodup (ns : List String) (x : String) (h : ns.Nodup) :
    (addName ns x).Nodup := by
  unfold addName
  by_cases hx : x ∈ ns
  · simpa [if_pos hx]
  · rw [if_neg hx]
    simp only [List.nodup_append, List.nodup_cons, List.nodup_nil]
    exact ⟨h, by simpa using hx⟩

theorem processLines_invariant (P : ParseState → Prop)
    (hstep : ∀ st l st1, processLine st l = some st1 → P st → P st1) :
    ∀ (ls : List Line) (st st1 : ParseState),
      processLines st ls = some st1 → P st → P st1 := by
  intro ls
  induction ls with
  | nil =>
    intro st st1 h hP
    simp only [processLines] at h
    cases h
    exact hP
  | cons l ls ih =>
    intro st st1 h hP
    simp only [processLines] at h
    cases hl : processLine st l with
    | none => rw [hl] at h; exact absurd h (by simp)
    | some st2 =>
      rw [hl] at h
      exact ih st2 st1 h (hstep st l st2 hl hP)

theorem processLine_names_nodup (st : ParseState) (l : Line) (st1 : ParseState)
    (h : processLine st l = some st1) (hn : st.names.Nodup) : st1.names.Nodup := by
  cases l with
  | nil => exact absurd h (by simp [processLine])
  | cons a t =>
    cases t with
    | nil => exact absurd h (by simp [processLine])
    | cons b t2 =>
      cases t2 with
      | nil => exact absurd h (by simp [processLine])
      | cons c t3 =>
        simp only [processLine] at h
        cases h
        exact addName_nodup _ _ (addName_nodup _ _ hn)

theorem processLine_some_iff (st : ParseState) (l : Line) (st1 : ParseState) :
    processLine st l = some st1 ↔
      ∃ a b c t, l = a :: b :: c :: t ∧
        st1 = ⟨((a, b), c) :: st.dist, addName (addName st.names a) b⟩ := by
  cases l with
  | nil => simp [processLine]
  | cons a t =>
    cases t with
    | nil => simp [processLine]
    | cons b t2 =>
      cases t2 with
      | nil => simp [processLine]
      | cons c t3 =>
        simp only [processLine, Option.some.injEq]
        constructor
        · intro h; exact ⟨a, b, c, t3, rfl, h.symm⟩
        · rintro ⟨a1, b1, c1, t4, heq, hst⟩
          cases heq
          exact hst.symm

theorem processLine_none_of_short (st : ParseState) (l : Line) (h : l.length < 3) :
    processLine st l = none := by
  cases l with
  | nil => rfl
  | cons a t =>
    cases t with
    | nil => rfl
    | cons b t2 =>
      cases t2 with
      | nil => rfl
      | cons c t3 => simp at h; omega

theorem processLines_none_of_short :
    ∀ (ls : List Line) (st : ParseState), (∃ l ∈ ls, l.length < 3) →
      processLines st ls = none := by
  intro ls
  induction ls with
  | nil => intro st h; simp at h
  | cons l ls ih =>
    intro st h
    simp only [processLines]
    rcases h with ⟨l0, hmem, hlen⟩
    rcases List.mem_cons.1 hmem with rfl | hmem
    · rw [processLine_none_of_short st l0 hlen]
    · cases hl : processLine st l with
      | none => rfl
      | some st1 => exact ih st1 ⟨l0, hmem, hlen⟩

theorem processLine_keysInNames (st : ParseState) (l : Line) (st1 : ParseState)
    (h : processLine st l = some st1) (hk : KeysInNames st) : KeysInNames st1 := by
  rcases (processLine_some_iff st l st1).1 h with ⟨a, b, c, t, rfl, rfl⟩
  intro p v hp
  rcases List.mem_cons.1 hp with heq | hp
  · cases heq
    constructor
    · exact (mem_addName _ _ _).2 (Or.inl ((mem_addName _ _ _).2 (Or.inr rfl)))
    · exact (mem_addName _ _ _).2 (Or.inr rfl)
  · rcases hk p v hp with ⟨h1, h2⟩
    constructor
    · exact (mem_addName _ _ _).2 (Or.inl ((mem_addName _ _ _).2 (Or.inl h1)))
    · exact (mem_addName _ _ _).2 (Or.inl ((mem_addName _ _ _).2 (Or.inl h2)))

theorem processLines_names :
    ∀ (ls : List Line) (st st1 : ParseState), processLines st ls = some st1 →
      ∀ x, x ∈ st1.names ↔
        x ∈ st.names ∨ ∃ l ∈ ls, l.get? 0 = some x ∨ l.get? 1 = some x := by
  intro ls
  induction ls with
  | nil =>
    intro st st1 h x
    simp only [processLines] at h
    cases h
    simp
  | cons l ls ih =>
    intro st st1 h x
    simp only [processLines] at h
    cases hl : processLine st l with
    | none => rw [hl] at h; exact absurd h (by simp)
    | some st2 =>
      rw [hl] at h
      rcases (processLine_some_iff st l st2).1 hl with ⟨a, b, c, t, rfl, rfl⟩
      rw [ih _ st1 h x]
      simp only [mem_addName, List.mem_cons, List.get?_cons_zero, List.get?_cons_succ,
        Option.some.injEq]
      constructor
      · rintro (((hx | rfl) | rfl) | ⟨l0, hm, hc⟩)
        · exact Or.inl hx
        · exact Or.inr ⟨_, Or.inl rfl, Or.inl rfl⟩
        · exact Or.inr ⟨_, Or.inl rfl, Or.inr rfl⟩
        · exact Or.inr ⟨l0, Or.inr hm, hc⟩
      · rintro (hx | ⟨l0, hm | hm, hc⟩)
        · exact Or.inl (Or.inl (Or.inl hx))
        · cases hm
          rcases hc with hc | hc
          · cases hc; exact Or.inl (Or.inl (Or.inr rfl))
          · cases hc; exact Or.inl (Or.inr rfl)
        · exact Or.inr ⟨l0, hm, hc⟩

theorem dlookup_cons (k : String × String) (v : String)
    (d : List ((String × String) × String)) (q : String × String) :
    dlookup ((k, v) :: d) q = if k = q then some v else dlookup d q := rfl

theorem processLines_dlookup :
    ∀ (ls : List Line) (st st1 : ParseState), processLines st ls = some st1 →
      ∀ a b, dlookup st1.dist (a, b) =
        match lastDist ls a b with
        | some z => some z
        | none => dlookup st.dist (a, b) := by
  intro ls
  induction ls with
  | nil =>
    intro st st1 h a b
    simp only [processLines] at h
    cases h
    simp [lastDist]
  | cons l ls ih =>
    intro st st1 h a b
    simp only [processLines] at h
    cases hl : processLine st l with
    | none => rw [hl] at h; exact absurd h (by simp)
    | some st2 =>
      rw [hl] at h
      rcases (processLine_some_iff st l st2).1 hl with ⟨x, y, z, t, rfl, rfl⟩
      rw [ih _ st1 h a b]
      simp only [lastDist]
      cases lastDist ls a b with
      | some w => rfl
      | none =>
        show dlookup (((x, y), z) :: st.dist) (a, b) = _
        rw [dlookup_cons]
        by_cases hxy : x = a ∧ y = b
        · rcases hxy with ⟨rfl, rfl⟩
          rw [if_pos rfl, if_pos ⟨rfl, rfl⟩]
        · rw [if_neg (by simpa [Prod.ext_iff] using hxy), if_neg hxy]

theorem dlookup_some_mem :
    ∀ (d : List ((String × String) × String)) (k : String × String) (v : String),
      dlookup d k = some v → (k, v) ∈ d := by
  intro d
  induction d with
  | nil => intro k v h; simp [dlookup] at h
  | cons p d ih =>
    intro k v h
    rcases p with ⟨k1, v1⟩
    simp only [dlookup] at h
    by_cases hk : k1 = k
    · rw [if_pos hk] at h
      cases h
      cases hk
      exact List.mem_cons_self _ _
    · rw [if_neg hk] at h
      exact List.mem_cons_of_mem _ (ih k v h)

theorem mem_streamLines (files : List String) (read : String → List Line) (l : Line) :
    l ∈ streamLines files read ↔ ∃ f ∈ files, l ∈ read f := by
  unfold streamLines
  rw [List.mem_flatten]
  constructor
  · rintro ⟨ls, hls, hl⟩
    rcases List.mem_map.1 hls with ⟨f, hf, rfl⟩
    exact ⟨f, (List.mem_insertionSort _).1 hf, hl⟩
  · rintro ⟨f, hf, hl⟩
    exact ⟨read f, List.mem_map.2 ⟨f, (List.mem_insertionSort _).2 hf, rfl⟩, hl⟩

theorem parsePhase_names_nodup (files : List String) (read : String → List Line)
    (st : ParseState) (hp : parsePhase files read = some st) : st.names.Nodup := by
  rw [parsePhase_eq_stream] at hp
  exact processLines_invariant (fun s => s.names.Nodup) processLine_names_nodup
    _ _ _ hp List.nodup_nil

theorem parsePhase_keysInNames (files : List String) (read : String → List Line)
    (st : ParseState) (hp : parsePhase files read = some st) : KeysInNames st := by
  rw [parsePhase_eq_stream] at hp
  refine processLines_invariant KeysInNames processLine_keysInNames _ _ _ hp ?_
  intro p v hv
  exact absurd hv (List.not_mem_nil _)

theorem assemble_eq_of_parse (files : List String) (read : String → List Line)
    (st : ParseState) (hp : parsePhase files read = some st) :
    assemble files read =
      match buildMatrix st.dist (List.insertionSort (fun a b => a ≤ b) st.names) with
      | none => none
      | some m => some (List.insertionSort (fun a b => a ≤ b) st.names, m) := by
  unfold assemble
  rw [hp]

theorem assemble_entry (files : List String) (read : String → List Line)
    (st : ParseState) (names : List String) (m : List (List ℚ)) (i j : ℕ) (A B : String)
    (hp : parsePhase files read = some st)
    (ha : assemble files read = some (names, m))
    (hA : names.get? i = some A) (hB : names.get? j = some B) :
    entry m i j = matrixEntry st.dist A B := by
  rw [assemble_eq_of_parse files read st hp] at ha
  cases hm : buildMatrix st.dist (List.insertionSort (fun a b => a ≤ b) st.names) with
  | none => rw [hm] at ha; exact absurd ha (by simp)
  | some m0 =>
    rw [hm] at ha
    simp only [Option.some.injEq, Prod.mk.injEq] at ha
    rcases ha with ⟨hnames, hmm⟩
    subst hmm
    rw [← hnames] at hA hB
    unfold buildMatrix at hm
    obtain ⟨row, hrowA, hmi⟩ := traverseOpt_get? _ _ _ hm i A hA
    unfold buildRow at hrowA
    obtain ⟨q, hq, hrj⟩ := traverseOpt_get? _ _ _ hrowA j B hB
    unfold entry
    rw [hmi]
    show row.get? j = matrixEntry st.dist A B
    rw [hrj]
    exact hq.symm

theorem assemble_names (files : List String) (read : String → List Line)
    (st : ParseState) (names : List String) (m : List (List ℚ))
    (hp : parsePhase files read = some st)
    (ha : assemble files read = some (names, m)) :
    names = List.insertionSort (fun a b => a ≤ b) st.names := by
  rw [assemble_eq_of_parse files read st hp] at ha
  cases hm : buildMatrix st.dist (List.insertionSort (fun a b => a ≤ b) st.names) with
  | none => rw [hm] at ha; exact absurd ha (by simp)
  | some m0 =>
    rw [hm] at ha
    simp only [Option.some.injEq, Prod.mk.injEq] at ha
    exact ha.1.symm

theorem parseFiles_of_empty (read : String → List Line) :
    ∀ (fs : List String) (st : ParseState), (∀ f ∈ fs, read f = []) →
      parseFiles read st fs = some st := by
  intro fs
  induction fs with
  | nil => intro st _; rfl
  | cons f fs ih =>
    intro st h
    simp only [parseFiles, processFile, h f (List.mem_cons_self f fs), processLines]
    exact ih st fun g hg => h g (List.mem_cons_of_mem f hg)

theorem insertionSort_eq_of_perm (l1 l2 : List String) (h : l1.Perm l2) :
    List.insertionSort (fun a b => a ≤ b) l1 = List.insertionSort (fun a b => a ≤ b) l2 :=
  List.eq_of_perm_of_sorted
    ((List.perm_insertionSort _ l1).trans (h.trans (List.perm_insertionSort _ l2).symm))
    (List.sorted_insertionSort _ l1) (List.sorted_insertionSort _ l2)

theorem processLine_take3 (st : ParseState) (l1 l2 : Line) (h : l1.take 3 = l2.take 3) :
    processLine st l1 = processLine st l2 := by
  rcases l1 with _ | ⟨a1, _ | ⟨b1, _ | ⟨c1, t1⟩⟩⟩ <;>
    rcases l2 with _ | ⟨a2, _ | ⟨b2, _ | ⟨c2, t2⟩⟩⟩ <;>
    simp_all [processLine]

theorem processLines_congr :
    ∀ (ls1 ls2 : List Line),
      List.Forall₂ (fun l1 l2 => l1.take 3 = l2.take 3) ls1 ls2 →
      ∀ st, processLines st ls1 = processLines st ls2 := by
  intro ls1 ls2 h
  induction h with
  | nil => intro st; rfl
  | cons h12 hrest ih =>
    intro st
    simp only [processLines]
    rw [processLine_take3 st _ _ h12]
    cases processLine st _ with
    | none => rfl
    | some st1 => exact ih st1

theorem parseFiles_congr (read1 read2 : String → List Line) :
    ∀ (fs : List String),
      (∀ f ∈ fs, List.Forall₂ (fun l1 l2 => l1.take 3 = l2.take 3) (read1 f) (read2 f)) →
      ∀ st, parseFiles read1 st fs = parseFiles read2 st fs := by
  intro fs
  induction fs with
  | nil => intro _ st; rfl
  | cons f fs ih =>
    intro h st
    simp only [parseFiles, processFile]
    rw [processLines_congr (read1 f) (read2 f) (h f (List.mem_cons_self f fs)) st]
    cases processLines st (read2 f) with
    | none => rfl
    | some st1 => exact ih (fun g hg => h g (List.mem_cons_of_mem f hg)) st1

/-! ### Claims -/

/-- C1 counterexample: when an unordered pair is recorded in both orientations
with different values, the assembled matrix is not symmetric and does not
reproduce the recorded distance 1 in both orientations: the input records
distance 1 for (A, B), yet the matrix holds 1 at (0, 1) and 2 at (1, 0). -/
theorem C1_counterexample :
    assemble ["f"] (fun _ => [["A", "B", "1"], ["B", "A", "2"]]) =
      some (["A", "B"], [[0, 1], [2, 0]]) ∧
    entry [[0, 1], [2, 0]] 0 1 = some 1 ∧
    entry [[0, 1], [2, 0]] 1 0 = some 2 ∧
    (2 : ℚ) ≠ 1 := by
  refine ⟨?_, ?_, ?_, ?_⟩
  · simp +decide [assemble, parsePhase, parseFiles, processFile, processLines,
      processLine, addName, buildMatrix, buildRow, traverseOpt, matrixEntry, dlookup,
      parseFloat, splitOnDot, parseDigits, digitVal, List.insertionSort,
      List.orderedInsert]
  · simp [entry]
  · simp [entry]
  · norm_num

/-- C1 (amended): for every unordered genome pair recorded in the final
DistanceIndex in exactly one orientation, with raw value `s` parsing to `d`,
the matrix entries at (index A, index B) and (index B, index A) both equal
`d`. -/
theorem C1_symmetry (files : List String) (read : String → List Line)
    (st : ParseState) (names : List String) (m : List (List ℚ))
    (i j : ℕ) (A B s : String) (d : ℚ)
    (hp : parsePhase files read = some st)
    (ha : assemble files read = some (names, m))
    (h1 : dlookup st.dist (A, B) = some s)
    (h2 : dlookup st.dist (B, A) = none)
    (hparse : parseFloat s = some d)
    (hA : names.get? i = some A) (hB : names.get? j = some B) :
    entry m i j = some d ∧ entry m j i = some d := by
  constructor
  · rw [assemble_entry files read st names m i j A B hp ha hA hB]
    unfold matrixEntry
    rw [h1]
    exact hparse
  · rw [assemble_entry files read st names m j i B A hp ha hB hA]
    unfold matrixEntry
    rw [h2, h1]
    exact hparse

/-- C1 witness: the amended symmetry claim applied at a concrete one-line
input. -/
theorem C1_witness :
    entry [[0, 1], [1, 0]] 0 1 = some 1 ∧ entry [[0, 1], [1, 0]] 1 0 = some 1 :=
  C1_symmetry ["f"] (fun _ => [["A", "B", "1"]])
    ⟨[(("A", "B"), "1")], ["A", "B"]⟩ ["A", "B"] [[0, 1], [1, 0]]
    0 1 "A" "B" "1" 1
    (by simp +decide [parsePhase, parseFiles, processFile, processLines, processLine,
      addName, List.insertionSort, List.orderedInsert])
    (by simp +decide [assemble, parsePhase, parseFiles, processFile, processLines,
      processLine, addName, buildMatrix, buildRow, traverseOpt, matrixEntry, dlookup,
      parseFloat, splitOnDot, parseDigits, digitVal, List.insertionSort,
      List.orderedInsert])
    (by decide) (by decide)
    (by simp +decide [parseFloat, splitOnDot, parseDigits, digitVal])
    (by decide) (by decide)

/-- C2 counterexample: a line recording a genome against itself puts its
recorded value, not 0, on the diagonal: with the single line (A, A, 5) the
diagonal entry is 5. -/
theorem C2_counterexample :
    assemble ["f"] (fun _ => [["A", "A", "5"]]) = some (["A"], [[5]]) ∧
    entry [[5]] 0 0 = some 5 ∧ (5 : ℚ) ≠ 0 := by
  refine ⟨?_, ?_, ?_⟩
  · simp +decide [assemble, parsePhase, parseFiles, processFile, processLines,
      processLine, addName, buildMatrix, buildRow, traverseOpt, matrixEntry, dlookup,
      parseFloat, splitOnDot, parseDigits, digitVal, List.insertionSort,
      List.orderedInsert]
  · simp [entry]
  · norm_num

/-- C2 (amended): the diagonal entry at (index A, index A) is 0 whenever no
input line records the pair (A, A); when such a line exists the diagonal holds
the recorded value instead. -/
theorem C2_diagonal (files : List String) (read : String → List Line)
    (st : ParseState) (names : List String) (m : List (List ℚ))
    (i : ℕ) (A : String)
    (hp : parsePhase files read = some st)
    (ha : assemble files read = some (names, m))
    (hself : dlookup st.dist (A, A) = none)
    (hA : names.get? i = some A) :
    entry m i i = some 0 := by
  rw [assemble_entry files read st names m i i A A hp ha hA hA]
  unfold matrixEntry
  rw [hself]

/-- C2 witness: the amended diagonal claim applied at a concrete input with no
self-pair line. -/
theorem C2_witness : entry [[0, 1], [1, 0]] 0 0 = some 0 :=
  C2_diagonal ["f"] (fun _ => [["A", "B", "1"]])
    ⟨[(("A", "B"), "1")], ["A", "B"]⟩ ["A", "B"] [[0, 1], [1, 0]] 0 "A"
    (by simp +decide [parsePhase, parseFiles, processFile, processLines, processLine,
      addName, List.insertionSort, List.orderedInsert])
    (by simp +decide [assemble, parsePhase, parseFiles, processFile, processLines,
      processLine, addName, buildMatrix, buildRow, traverseOpt, matrixEntry, dlookup,
      parseFloat, splitOnDot, parseDigits, digitVal, List.insertionSort,
      List.orderedInsert])
    (by decide) (by decide)

/-- C3: every matrix cell follows the two-probe dictionary lookup of the code:
the value under (nameA, nameB) when present, else the value under
(nameB, nameA) when present, else 0. -/
theorem C3_cell (files : List String) (read : String → List Line)
    (st : ParseState) (names : List String) (m : List (List ℚ))
    (i j : ℕ) (A B : String)
    (hp : parsePhase files read = some st)
    (ha : assemble files read = some (names, m))
    (hA : names.get? i = some A) (hB : names.get? j = some B) :
    (∃ s, dlookup st.dist (A, B) = some s ∧ entry m i j = parseFloat s) ∨
    (dlookup st.dist (A, B) = none ∧
      ∃ s, dlookup st.dist (B, A) = some s ∧ entry m i j = parseFloat s) ∨
    (dlookup st.dist (A, B) = none ∧ dlookup st.dist (B, A) = none ∧
      entry m i j = some 0) := by
  have he := assemble_entry files read st names m i j A B hp ha hA hB
  unfold matrixEntry at he
  cases h1 : dlookup st.dist (A, B) with
  | some s => rw [h1] at he; exact Or.inl ⟨s, rfl, he⟩
  | none =>
    rw [h1] at he
    cases h2 : dlookup st.dist (B, A) with
    | some s => rw [h2] at he; exact Or.inr (Or.inl ⟨rfl, s, rfl, he⟩)
    | none => rw [h2] at he; exact Or.inr (Or.inr ⟨rfl, rfl, he⟩)

/-- C3 witness: the cell claim applied at a concrete input, where the first
probe succeeds. -/
theorem C3_witness :
    (∃ s, dlookup [(("A", "B"), "1")] ("A", "B") = some s ∧
      entry [[0, 1], [1, 0]] 0 1 = parseFloat s) ∨
    (dlookup [(("A", "B"), "1")] ("A", "B") = none ∧
      ∃ s, dlookup [(("A", "B"), "1")] ("B", "A") = some s ∧
        entry [[0, 1], [1, 0]] 0 1 = parseFloat s) ∨
    (dlookup [(("A", "B"), "1")] ("A", "B") = none ∧
      dlookup [(("A", "B"), "1")] ("B", "A") = none ∧
      entry [[0, 1], [1, 0]] 0 1 = some 0) :=
  C3_cell ["f"] (fun _ => [["A", "B", "1"]])
    ⟨[(("A", "B"), "1")], ["A", "B"]⟩ ["A", "B"] [[0, 1], [1, 0]] 0 1 "A" "B"
    (by simp +decide [parsePhase, parseFiles, processFile, processLines, processLine,
      addName, List.insertionSort, List.orderedInsert])
    (by simp +decide [assemble, parsePhase, parseFiles, processFile, processLines,
      processLine, addName, buildMatrix, buildRow, traverseOpt, matrixEntry, dlookup,
      parseFloat, splitOnDot, parseDigits, digitVal, List.insertionSort,
      List.orderedInsert])
    (by decide) (by decide)

/-- C4 counterexample: the dictionary stores each orientation of an unordered
pair independently, so after the lines (A, B, 1) and (B, A, 2) the index holds
two distinct values for the unordered pair, and the second stored key keeps
its own orientation rather than the first-seen one. -/
theorem C4_counterexample :
    parsePhase ["f"] (fun _ => [["A", "B", "1"], ["B", "A", "2"]]) =
      some ⟨[(("B", "A"), "2"), (("A", "B"), "1")], ["A", "B"]⟩ ∧
    dlookup [(("B", "A"), "2"), (("A", "B"), "1")] ("A", "B") = some "1" ∧
    dlookup [(("B", "A"), "2"), (("A", "B"), "1")] ("B", "A") = some "2" ∧
    "1" ≠ "2" := by
  refine ⟨?_, ?_, ?_, ?_⟩
  · simp +decide [parsePhase, parseFiles, processFile, processLines, processLine,
      addName, List.insertionSort, List.orderedInsert]
  · decide
  · decide
  · decide

/-- C4 (amended): the DistanceIndex records at most one value per ordered
pair: the lookup of an ordered pair returns exactly the distance field of the
last line with that ordered pair in the stream of lines of all files taken in
sorted filename order (so for a duplicated ordered pair the alphabetically
last file wins).  The two orientations of an unordered pair are stored
independently. -/
theorem C4_lastWrite (files : List String) (read : String → List Line)
    (st : ParseState) (hp : parsePhase files read = some st) (a b : String) :
    dlookup st.dist (a, b) = lastDist (streamLines files read) a b := by
  rw [parsePhase_eq_stream] at hp
  rw [processLines_dlookup (streamLines files read) ⟨[], []⟩ st hp a b]
  cases lastDist (streamLines files read) a b with
  | some z => rfl
  | none => rfl

/-- C4 witness: the last-write claim applied at a concrete input whose two
lines record the same ordered pair twice. -/
theorem C4_witness :
    dlookup [(("A", "B"), "2"), (("A", "B"), "1")] ("A", "B") =
      lastDist (streamLines ["f"] (fun _ => [["A", "B", "1"], ["A", "B", "2"]])) "A" "B" :=
  C4_lastWrite ["f"] (fun _ => [["A", "B", "1"], ["A", "B", "2"]])
    ⟨[(("A", "B"), "2"), (("A", "B"), "1")], ["A", "B"]⟩
    (by simp +decide [parsePhase, parseFiles, processFile, processLines, processLine,
      addName, List.insertionSort, List.orderedInsert])
    "A" "B"

/-- C5 counterexample: a malformed (non-numeric) distance line does not abort
the run when a later line overwrites the same ordered pair: the run containing
the line (A, B, zzz) completes and outputs a full matrix. -/
theorem C5_counterexample :
    parseFloat "zzz" = none ∧
    assemble ["f"] (fun _ => [["A", "B", "zzz"], ["A", "B", "1"]]) =
      some (["A", "B"], [[0, 1], [1, 0]]) := by
  constructor
  · simp +decide [parseFloat, splitOnDot, parseDigits, digitVal]
  · simp +decide [assemble, parsePhase, parseFiles, processFile, processLines,
      processLine, addName, buildMatrix, buildRow, traverseOpt, matrixEntry, dlookup,
      parseFloat, splitOnDot, parseDigits, digitVal, List.insertionSort,
      List.orderedInsert]

/-- C5 (amended): a line with fewer than three tab-separated fields always
aborts the run; a non-numeric distance field aborts the run whenever its
dictionary entry survives to the matrix phase (in particular it is never
silently skipped and never contributes a default value), but it is harmless
when a later line overwrites the same ordered pair. -/
theorem C5_malformed (files : List String) (read : String → List Line) :
    ((∃ f ∈ files, ∃ l ∈ read f, l.length < 3) → assemble files read = none) ∧
    (∀ st a b s, parsePhase files read = some st → dlookup st.dist (a, b) = some s →
      parseFloat s = none → assemble files read = none) := by
  constructor
  · rintro ⟨f, hf, l, hl, hlen⟩
    have hnone : parsePhase files read = none := by
      rw [parsePhase_eq_stream]
      exact processLines_none_of_short _ _
        ⟨l, (mem_streamLines files read l).2 ⟨f, hf, hl⟩, hlen⟩
    unfold assemble
    rw [hnone]
  · intro st a b s hp hlook hbadparse
    have hmem := dlookup_some_mem st.dist (a, b) s hlook
    rcases parsePhase_keysInNames files read st hp (a, b) s hmem with ⟨hain, hbin⟩
    have hasort : a ∈ List.insertionSort (fun x y => x ≤ y) st.names :=
      (List.mem_insertionSort _).2 hain
    have hbsort : b ∈ List.insertionSort (fun x y => x ≤ y) st.names :=
      (List.mem_insertionSort _).2 hbin
    rw [assemble_eq_of_parse files read st hp]
    cases hm : buildMatrix st.dist (List.insertionSort (fun x y => x ≤ y) st.names) with
    | none => rfl
    | some m =>
      exfalso
      unfold buildMatrix at hm
      obtain ⟨row, hrow⟩ := traverseOpt_mem _ _ _ hm a hasort
      unfold buildRow at hrow
      obtain ⟨q, hq⟩ := traverseOpt_mem _ _ _ hrow b hbsort
      unfold matrixEntry at hq
      rw [hlook] at hq
      have hq2 : parseFloat s = some q := hq
      rw [hbadparse] at hq2
      exact absurd hq2 (by simp)

/-- C5 witness: the amended error claim applied at two concrete inputs, one
with a two-field line, one whose surviving distance entry does not parse. -/
theorem C5_witness :
    assemble ["f"] (fun _ => [["A", "B"]]) = none ∧
    assemble ["g"] (fun _ => [["A", "B", "zzz"]]) = none :=
  ⟨(C5_malformed ["f"] (fun _ => [["A", "B"]])).1
      ⟨"f", by decide, ["A", "B"], by decide, by decide⟩,
    (C5_malformed ["g"] (fun _ => [["A", "B", "zzz"]])).2
      ⟨[(("A", "B"), "zzz")], ["A", "B"]⟩ "A" "B" "zzz"
      (by simp +decide [parsePhase, parseFiles, processFile, processLines, processLine,
        addName, List.insertionSort, List.orderedInsert])
      (by decide)
      (by simp +decide [parseFloat, splitOnDot, parseDigits, digitVal])⟩

/-- C6: for well-formed inputs (ones the parse phase accepts), the name list
holds exactly the distinct identifiers appearing in column 1 or column 2 of
any line of any file, without duplicates. -/
theorem C6_nameSet (files : List String) (read : String → List Line)
    (st : ParseState) (hp : parsePhase files read = some st) :
    st.names.Nodup ∧
    ∀ x, x ∈ st.names ↔
      ∃ f ∈ files, ∃ l ∈ read f, l.get? 0 = some x ∨ l.get? 1 = some x := by
  refine ⟨parsePhase_names_nodup files read st hp, fun x => ?_⟩
  rw [parsePhase_eq_stream] at hp
  rw [processLines_names (streamLines files read) ⟨[], []⟩ st hp x]
  have hnil : ((⟨[], []⟩ : ParseState)).names = [] := rfl
  rw [hnil]
  simp only [List.not_mem_nil, false_or]
  constructor
  · rintro ⟨l, hl, hc⟩
    rcases (mem_streamLines files read l).1 hl with ⟨f, hf, hlf⟩
    exact ⟨f, hf, l, hlf, hc⟩
  · rintro ⟨f, hf, l, hl, hc⟩
    exact ⟨l, (mem_streamLines files read l).2 ⟨f, hf, hl⟩, hc⟩

/-- C6 witness: the name-set claim applied at a concrete one-line input,
instantiated at the identifier A. -/
theorem C6_witness :
    (["A", "B"] : List String).Nodup ∧
    ("A" ∈ (["A", "B"] : List String) ↔
      ∃ f ∈ ["f"], ∃ l ∈ (fun _ : String => [["A", "B", "1"]]) f,
        l.get? 0 = some "A" ∨ l.get? 1 = some "A") :=
  ⟨(C6_nameSet ["f"] (fun _ => [["A", "B", "1"]])
      ⟨[(("A", "B"), "1")], ["A", "B"]⟩
      (by simp +decide [parsePhase, parseFiles, processFile, processLines, processLine,
        addName, List.insertionSort, List.orderedInsert])).1,
    (C6_nameSet ["f"] (fun _ => [["A", "B", "1"]])
      ⟨[(("A", "B"), "1")], ["A", "B"]⟩
      (by simp +decide [parsePhase, parseFiles, processFile, processLines, processLine,
        addName, List.insertionSort, List.orderedInsert])).2 "A"⟩

/-- C7: the example scenario. Two files whose only lines record (G1, G2,
0.001) and (G2, G3, 0.002) produce the sorted names [G1, G2, G3] and the
matrix [[0, 0.001, 0], [0.001, 0, 0.002], [0, 0.002, 0]]. -/
theorem C7_example :
    assemble ["f1", "f2"] (fun f =>
        if f = "f1" then [["G1", "G2", "0.001", "0", "900/1000"]]
        else if f = "f2" then [["G2", "G3", "0.002", "0", "800/1000"]] else []) =
      some (["G1", "G2", "G3"],
        [[0, 1/1000, 0], [1/1000, 0, 2/1000], [0, 2/1000, 0]]) := by
  simp +decide [assemble, parsePhase, parseFiles, processFile, processLines,
    processLine, addName, buildMatrix, buildRow, traverseOpt, matrixEntry, dlookup,
    parseFloat, splitOnDot, parseDigits, digitVal, List.insertionSort,
    List.orderedInsert]
  norm_num

/-- C8: the assembler is a function of the set of files alone: any two
enumerations of the same directory (permutations of each other) produce
identical output, names and matrix alike. -/
theorem C8_deterministic (files1 files2 : List String) (read : String → List Line)
    (h : files1.Perm files2) : assemble files1 read = assemble files2 read := by
  unfold assemble parsePhase
  rw [insertionSort_eq_of_perm files1 files2 h]

/-- C8 witness: the determinism claim applied to two orderings of a two-file
directory. -/
theorem C8_witness :
    assemble ["g", "f"] (fun _ => [["A", "B", "1"]]) =
      assemble ["f", "g"] (fun _ => [["A", "B", "1"]]) :=
  C8_deterministic ["g", "f"] ["f", "g"] (fun _ => [["A", "B", "1"]]) (by decide)

/-- C9: only the first three fields of each line affect the output: two reads
whose lines agree on their first three fields give identical output. -/
theorem C9_firstThreeFields (files : List String) (read1 read2 : String → List Line)
    (h : ∀ f ∈ files,
      List.Forall₂ (fun l1 l2 => l1.take 3 = l2.take 3) (read1 f) (read2 f)) :
    assemble files read1 = assemble files read2 := by
  have hp : parseFiles read1 ⟨[], []⟩ (List.insertionSort (fun a b => a ≤ b) files) =
      parseFiles read2 ⟨[], []⟩ (List.insertionSort (fun a b => a ≤ b) files) :=
    parseFiles_congr read1 read2 _
      (fun f hf => h f ((List.mem_insertionSort _).1 hf)) _
  unfold assemble parsePhase
  rw [hp]

/-- C9 witness: the field-independence claim applied to two one-line inputs
differing only in the fourth and fifth fields. -/
theorem C9_witness :
    assemble ["f"] (fun _ => [["A", "B", "1", "0", "900/1000"]]) =
      assemble ["f"] (fun _ => [["A", "B", "1", "1", "800/1000"]]) :=
  C9_firstThreeFields ["f"] (fun _ => [["A", "B", "1", "0", "900/1000"]])
    (fun _ => [["A", "B", "1", "1", "800/1000"]])
    (fun _ _ => List.Forall₂.cons (by decide) List.Forall₂.nil)

/-- C10: a directory with no files, or only files with no lines, is accepted:
the assembler completes and hands the empty name sequence and the empty
matrix to the external constructor. -/
theorem C10_empty (files : List String) (read : String → List Line)
    (h : ∀ f ∈ files, read f = []) : assemble files read = some ([], []) := by
  have hp : parsePhase files read = some ⟨[], []⟩ := by
    unfold parsePhase
    exact parseFiles_of_empty read _ _ (fun f hf => h f ((List.mem_insertionSort _).1 hf))
  rw [assemble_eq_of_parse files read ⟨[], []⟩ hp]
  rfl

/-- C10 witness: the empty-input claim applied to a directory of one empty
file. -/
theorem C10_witness : assemble ["e"] (fun _ => ([] : List Line)) = some ([], []) :=
  C10_empty ["e"] (fun _ => ([] : List Line)) (fun _ _ => rfl)

end NotebookTree
